import Mathlib

/-!
Verification of the NDEF message codec and serial frame layer
(SF Toolworks NFC client).

The JavaScript source is shallowly embedded below.  Byte buffers are
`List Nat`; JavaScript signed 32-bit arithmetic (used by shifts and
bitwise ORs on record lengths) is made explicit through `int32ofNat`;
out-of-range array reads (which yield `undefined` in JavaScript, and
which every numeric coercion in the relevant code turns into `0`)
are modelled by `jsGet` returning `0`, with an explicit flag recording
whether any such out-of-range access happened.
-/

namespace NFC

/-- Interpret `n % 2^32` as a signed 32-bit value, as JavaScript bitwise
operators do (`ToInt32`). -/
def int32ofNat (n : Nat) : Int :=
  let m : Nat := n % 2 ^ 32
  if m < 2 ^ 31 then (m : Int) else (m : Int) - 2 ^ 32

/-- Read `data[i]`.  JavaScript returns `undefined` outside the index
range; every use in the source coerces that to `0` (bitwise ops, loop
bounds, `String.fromCharCode`), so the model reads `0` there. -/
def jsGet (data : List Nat) (i : Int) : Nat :=
  if 0 ≤ i ∧ i < (data.length : Int) then data.getD i.toNat 0 else 0

/-- `Array.prototype.slice(s, e)` with the JavaScript clamping rules for
negative and out-of-range arguments. -/
def jsSlice (data : List Nat) (s e : Int) : List Nat :=
  let n : Int := data.length
  let s1 := if s < 0 then max (n + s) 0 else min s n
  let e1 := if e < 0 then max (n + e) 0 else min e n
  (data.drop s1.toNat).take (e1 - s1).toNat

/-- NDEF record header bitfield (`function Header()` in the source).
The source stores the flags as the raw masked numbers and only ever
consumes their truthiness, so they are modelled as `Bool`. -/
structure Header where
  messageBegin : Bool
  messageEnd : Bool
  chunked : Bool
  shortRecord : Bool
  IDLength : Bool
  TNF : Nat
deriving DecidableEq

/-- `Header.prototype.toByte`: OR the TNF with one bit per set flag. -/
def Header.toByte (h : Header) : Nat :=
  let b := h.TNF
  let b := if h.messageBegin then b ||| 0x80 else b
  let b := if h.messageEnd then b ||| 0x40 else b
  let b := if h.chunked then b ||| 0x20 else b
  let b := if h.shortRecord then b ||| 0x10 else b
  let b := if h.IDLength then b ||| 0x08 else b
  b

/-- `Header.prototype.fromByte`: mask each flag bit and the low 3 TNF
bits out of the byte. -/
def Header.fromByte (b : Nat) : Header :=
  { messageBegin := (b &&& 0x80) ≠ 0
    messageEnd := (b &&& 0x40) ≠ 0
    chunked := (b &&& 0x20) ≠ 0
    shortRecord := (b &&& 0x10) ≠ 0
    IDLength := (b &&& 0x08) ≠ 0
    TNF := b &&& 0x7 }

set_option maxRecDepth 4096 in
/-- C5: for every byte value `b` in 0-255, `fromByte (toByte (fromByte b))`
yields a header whose five flags and TNF equal those of `fromByte b`. -/
theorem header_roundtrip_idempotent :
    ∀ b : Nat, b < 256 →
      Header.fromByte (Header.toByte (Header.fromByte b)) = Header.fromByte b := by
  decide

/-- Witness for C5 at the concrete byte 0xD1. -/
theorem header_roundtrip_idempotent_witness :
    Header.fromByte (Header.toByte (Header.fromByte 0xD1)) = Header.fromByte 0xD1 :=
  header_roundtrip_idempotent 0xD1 (by decide)

/-- Character codes of a string literal. -/
def strCodes (s : String) : List Nat := s.data.map Char.toNat

def typeT : List Nat := strCodes "T"

def typeU : List Nat := strCodes "U"

def typeAAR : List Nat := strCodes "android.com:pkg"

/-- `Record.typeKeys` after the three `Record.extend` calls, in
registration (= JavaScript key-enumeration) order: TextRecord `"T"`,
URIRecord `"U"`, AndroidApplicationRecord `"android.com:pkg"`. -/
def typeKeys : List (List Nat) := [typeT, typeU, typeAAR]

/-- An NDEF record as the parser produces it: the prototype's type name
and TNF plus the payload bytes it owns. -/
structure Record where
  type : List Nat
  TNF : Nat
  bytes : List Nat
deriving DecidableEq

/-- Payload handling of the three registered constructors when invoked
with a byte-array payload: `TextRecord.prototype.parse` substitutes the
fallback `[2,'e','n']` for payloads shorter than 3 bytes;
`URIRecord.prototype.parse` and `AndroidApplicationRecord.prototype.parse`
keep the payload verbatim. -/
def factoryBytes (t payload : List Nat) : List Nat :=
  if t = typeT then (if payload.length < 3 then [2, 101, 110] else payload) else payload

/-- The TNF installed on each registered prototype by `Record.extend`
(0x04 for the Android application record, the well-known 0x01 default
otherwise). -/
def typeTNF (t : List Nat) : Nat := if t = typeAAR then 0x04 else 0x01

/-- Invoke the registered factory for type name `t` on a payload. -/
def mkRecord (t payload : List Nat) : Record :=
  { type := t, TNF := typeTNF t, bytes := factoryBytes t payload }

/-- The strings thrown by `Record.parse`, as structured values
(the formatted numbers and type name are carried as fields). -/
inductive NdefError
  | invalidRecordData
  | invalidRecordLen (expected remaining : Int)
  | unsupportedType (t : List Nat)
deriving DecidableEq

deriving instance DecidableEq for Except

/-- `Record.parse(data, offset)`: header byte, type-length byte, a 1- or
4-byte length (the 4-byte form recombined with JavaScript signed 32-bit
shifts and ORs), the type name, the bounds check, the payload slice and
the registry lookup.  The second component records whether any index
outside `[0, data.length)` was accessed (all such reads are contiguous
with the in-range ones, so this is equivalent to `offset < 0 ∨ length < ptr`). -/
def parseRecord (data : List Nat) (offset : Int) :
    Except NdefError (Record × Int) × Bool :=
  if (data.length : Int) - offset < 4 then (.error .invalidRecordData, false) else
  let header := Header.fromByte (jsGet data offset)
  let typeLen : Nat := jsGet data (offset + 1)
  let lenSize : Int := if header.shortRecord then 1 else 4
  let recordLen : Int :=
    if header.shortRecord then (jsGet data (offset + 2) : Int)
    else int32ofNat (jsGet data (offset + 2) <<< 24 ||| jsGet data (offset + 3) <<< 16 |||
      jsGet data (offset + 4) <<< 8 ||| jsGet data (offset + 5))
  let typeStart := offset + 2 + lenSize
  let recordType := (List.range typeLen).map fun (i : Nat) => jsGet data (typeStart + (i : Int))
  let ptr := typeStart + (typeLen : Int)
  let oob : Bool := decide (offset < 0 ∨ (data.length : Int) < ptr)
  if (data.length : Int) - ptr < recordLen then
    (.error (.invalidRecordLen recordLen ((data.length : Int) - ptr)), oob)
  else
    match typeKeys.find? (fun t => recordType == t) with
    | some t => (.ok (mkRecord t (jsSlice data ptr (ptr + recordLen)), ptr - offset + recordLen), oob)
    | none => (.error (.unsupportedType recordType), oob)

/-- The `while` loop of `Message.parse`, with explicit fuel; `none`
means the loop did not finish within `fuel` iterations. -/
def parseLoop (fuel : Nat) (data : List Nat) (offset : Int) :
    Option (Except NdefError (List Record)) :=
  match fuel with
  | 0 => none
  | fuel + 1 =>
    if offset < (data.length : Int) then
      match (parseRecord data offset).1 with
      | .error e => some (.error e)
      | .ok (r, consumed) =>
        (parseLoop fuel data (offset + consumed)).map fun res => res.map fun rs => r :: rs
    else some (.ok [])

/-- `Message.parse(data)`.  A terminating run of the source loop visits
pairwise distinct offsets, all but its last in `[-1, data.length)`, so
`data.length + 3` iterations always suffice; `none` is returned exactly
when the source loop runs forever. -/
def messageParse (data : List Nat) : Option (Except NdefError (List Record)) :=
  parseLoop (data.length + 3) data 0

/-- `Record.prototype.getBytes(first, last)`: header byte, type-length
byte, 1-byte (short) or 4-byte big-endian length, type name, payload. -/
def recordGetBytes (r : Record) (first last : Bool) : List Nat :=
  let header : Header :=
    { messageBegin := first, messageEnd := last, chunked := false,
      shortRecord := decide (r.bytes.length < 0x100), IDLength := false, TNF := r.TNF }
  let lenBytes : List Nat :=
    if r.bytes.length < 0x100 then [r.bytes.length]
    else [r.bytes.length >>> 24 &&& 0xff, r.bytes.length >>> 16 &&& 0xff,
          r.bytes.length >>> 8 &&& 0xff, r.bytes.length &&& 0xff]
  header.toByte :: r.type.length :: (lenBytes ++ r.type ++ r.bytes)

/-- The indexed loop of `Message.prototype.getBytes`: record `i` is
encoded with `first = (i == 0)` and `last = (i == length - 1)`. -/
def getBytesGo : Bool → List Record → List Nat
  | _, [] => []
  | first, r :: rest => recordGetBytes r first rest.isEmpty ++ getBytesGo false rest

/-- `Message.prototype.getBytes()`. -/
def messageGetBytes (rs : List Record) : List Nat := getBytesGo true rs

/-- `URIRecord.prototype.ProtocolList`: the 36-entry abbreviation table,
order-significant since the index is the wire value. -/
def ProtocolList : List String :=
  ["", "http://www.", "https://www.", "http://", "https://", "tel:", "mailto:",
   "ftp://anonymous:anonymous@", "ftp://ftp.", "ftps://", "sftp://", "smb://",
   "nfs://", "ftp://", "dav://", "news:", "telnet://", "imap:", "rtsp://",
   "urn:", "pop:", "sip:", "sips:", "tftp:", "btspp://", "btl2cap://",
   "btgoep://", "tcpobex://", "irdaobex://", "file://", "urn:epc:id:",
   "urn:epc:tag:", "urn:epc:pat:", "urn:epc:raw:", "urn:epc:", "urn:nfc:"]

/-- `String.prototype.toLowerCase` on the code range the table exercises
(ASCII letters). -/
def jsToLower (c : Nat) : Nat := if 65 ≤ c ∧ c ≤ 90 then c + 32 else c

/-- Matching of `new RegExp("^" + pattern)` against the start of a
string: each pattern character matches itself literally except `.`
(code 46), which matches any character other than a line terminator.
`.` is the only regex metacharacter occurring in the protocol table. -/
def dotMatches : List Nat → List Nat → Bool
  | [], _ => true
  | _ :: _, [] => false
  | p :: ps, c :: cs =>
    (if p = 46 then !(c == 10 || c == 13 || c == 8232 || c == 8233) else p == c)
      && dotMatches ps cs

/-- The scanning loop of `URIRecord.prototype.reset`, with the number of
iterations still allowed as the structural argument (the loop condition
`protocol <= ProtocolList.length` leaves `length + 1 - protocol`
iterations from position `protocol`). -/
def findProtocolLoop (lc : List Nat) : Nat → Nat → Nat
  | 0, protocol => protocol
  | n + 1, protocol =>
    if dotMatches (strCodes (ProtocolList.getD protocol "undefined")) lc then protocol
    else findProtocolLoop lc n (protocol + 1)

/-- The scan of `URIRecord.prototype.reset` from position `protocol`:
`protocol` runs while `protocol <= ProtocolList.length` (note the `<=`:
the last iteration reads `ProtocolList[36]`, which is `undefined`, so
JavaScript builds the regex `^undefined`), breaking at the first match. -/
def findProtocolFrom (lc : List Nat) (protocol : Nat) : Nat :=
  findProtocolLoop lc (ProtocolList.length + 1 - protocol) protocol

/-- `URIRecord.prototype.reset(uri)`: the payload bytes it builds
(`this.bytes`): the selected protocol index (clamped to 0 when the scan
ran off the table) followed by the URI with the first
`ProtocolList[protocol].length` characters stripped. -/
def uriReset (uri : List Nat) : List Nat :=
  let lc := uri.map jsToLower
  let protocol := findProtocolFrom lc 1
  let protocol1 := if protocol ≥ ProtocolList.length then 0 else protocol
  let remainder := uri.drop (ProtocolList.getD protocol1 "").length
  protocol1 :: remainder

/-- `new URIRecord(str)` with a string argument: type `"U"`, the
prototype TNF, and the bytes produced by `reset`. -/
def uriRecordOf (s : String) : Record :=
  { type := typeU, TNF := typeTNF typeU, bytes := uriReset (strCodes s) }

theorem protocolList_length : ProtocolList.length = 36 := rfl

theorem getD_protocolList (k : Nat) (h : k < 36) (d1 d2 : String) :
    ProtocolList.getD k d1 = ProtocolList.getD k d2 := by
  rw [List.getD_eq_getElem _ d1 (by rw [protocolList_length]; exact h),
    List.getD_eq_getElem _ d2 (by rw [protocolList_length]; exact h)]

/-- Case-insensitive plain-prefix test, as the claim's wording reads. -/
def ciIsPrefixOf (p : String) (uri : List Nat) : Bool :=
  List.isPrefixOf ((strCodes p).map jsToLower) (uri.map jsToLower)

/-- The table index in 1..35 carrying the longest entry that is a
case-insensitive prefix of the URI (0 when none is) - the selector the
claim describes. -/
def longestMatchIdx (uri : List Nat) : Nat :=
  ((List.range' 1 35).filter fun i => ciIsPrefixOf (ProtocolList.getD i "") uri).foldl
    (fun best i =>
      if (ProtocolList.getD best "").length < (ProtocolList.getD i "").length then i else best) 0

/-- The selector the code actually implements, stated declaratively: the
first index in table order (1..35) whose entry - read as the regex the
source builds, with `.` a wildcard - matches the start of the lowercased
URI, and 0 when none does. -/
def firstMatchIdx (uri : List Nat) : Nat :=
  ((List.range' 1 35).find? fun i =>
    dotMatches (strCodes (ProtocolList.getD i "")) (uri.map jsToLower)).getD 0

/-- Payload shape stated from `firstMatchIdx`, for comparison with the
imperative `uriReset`. -/
def uriResetSpec (uri : List Nat) : List Nat :=
  firstMatchIdx uri :: uri.drop (ProtocolList.getD (firstMatchIdx uri) "").length

/-- C3 counterexample: on `"urn:epc:id:x"` the encoder emits index 19
(`"urn:"`, the first matching table entry), although the longest
case-insensitive prefix among entries 1-35 is `"urn:epc:id:"` at index
30, so the payload is not `[index of longest prefix][stripped URI]`. -/
theorem uriReset_not_longest_cex :
    uriReset (strCodes "urn:epc:id:x") = 19 :: strCodes "epc:id:x" ∧
    longestMatchIdx (strCodes "urn:epc:id:x") = 30 ∧
    uriReset (strCodes "urn:epc:id:x") ≠
      30 :: (strCodes "urn:epc:id:x").drop (ProtocolList.getD 30 "").length := by
  decide

theorem findProtocolLoop_eq (lc : List Nat) :
    ∀ n k, k + n = 37 →
      (((List.range' k (36 - k)).find? fun i =>
          dotMatches (strCodes (ProtocolList.getD i "")) lc).elim
        (36 ≤ findProtocolLoop lc n k)
        fun i => findProtocolLoop lc n k = i ∧ i < 36) := by
  intro n
  induction n with
  | zero =>
    intro k hk
    have hk37 : k = 37 := by omega
    subst hk37
    norm_num [findProtocolLoop]
  | succ n ih =>
    intro k hk
    rcases Nat.lt_or_ge k 36 with hlt | hge
    · have hrange : 36 - k = (36 - (k + 1)) + 1 := by omega
      rw [hrange, List.range'_succ, findProtocolLoop,
        getD_protocolList k hlt "undefined" ""]
      by_cases hm : dotMatches (strCodes (ProtocolList.getD k "")) lc
      · rw [show (List.find? (fun i => dotMatches (strCodes (ProtocolList.getD i "")) lc)
            (k :: List.range' (k + 1) (36 - (k + 1)))) = some k from
            List.find?_cons_of_pos _ hm]
        simp only [Option.elim_some, if_pos hm]
        exact ⟨trivial, hlt⟩
      · rw [show (List.find? (fun i => dotMatches (strCodes (ProtocolList.getD i "")) lc)
            (k :: List.range' (k + 1) (36 - (k + 1)))) =
            List.find? (fun i => dotMatches (strCodes (ProtocolList.getD i "")) lc)
            (List.range' (k + 1) (36 - (k + 1))) from
            List.find?_cons_of_neg _ (by simpa using hm)]
        simp only [if_neg hm]
        exact ih (k + 1) (by omega)
    · have hk36 : k = 36 := by omega
      subst hk36
      have hn : n = 0 := by omega
      subst hn
      simp only [Nat.sub_self, List.range'_zero, List.find?_nil, Option.elim_none]
      rw [findProtocolLoop]
      split
      · norm_num
      · norm_num [findProtocolLoop]

/-- C3 (amended): for every input URI, `URIRecord.reset` selects as
protocol index the first entry in table order (scanning 1..35) whose
entry - used as a regex, so `.` matches any character - matches the
start of the lowercased URI, index 0 when none matches, and emits
payload `[index][URI with the first table-entry-length characters
stripped]`. -/
theorem uriReset_selects_first_table_match (uri : List Nat) :
    uriReset uri = uriResetSpec uri := by
  have h := findProtocolLoop_eq (uri.map jsToLower) 36 1 (by omega)
  have h36 : (36 : Nat) - 1 = 35 := by norm_num
  rw [h36] at h
  simp only [uriReset, uriResetSpec, firstMatchIdx, findProtocolFrom, protocolList_length,
    show (36 : Nat) + 1 - 1 = 36 from rfl]
  cases hfind : (List.range' 1 35).find? fun i =>
      dotMatches (strCodes (ProtocolList.getD i "")) (uri.map jsToLower) with
  | none =>
    rw [hfind] at h
    simp only [Option.elim_none] at h
    rw [if_pos (by omega : findProtocolLoop (uri.map jsToLower) 36 1 ≥ 36)]
    rfl
  | some i =>
    rw [hfind] at h
    simp only [Option.elim_some] at h
    obtain ⟨heq, hlt⟩ := h
    rw [heq, if_neg (by omega : ¬ i ≥ 36)]
    rfl

set_option maxRecDepth 8192 in
/-- C6: `URIRecord("http://www.example.com")` encodes payload
`[1]` ++ `"example.com"`, and the single-record message containing it
serializes to header byte 0xD1, type-length 1, data-length 12, type
byte 'U' (85), then those 12 payload bytes. -/
theorem uriRecord_example_serialization :
    uriReset (strCodes "http://www.example.com") = 1 :: strCodes "example.com" ∧
    messageGetBytes [uriRecordOf "http://www.example.com"] =
      [0xD1, 1, 12, 85] ++ (1 :: strCodes "example.com") := by
  decide

/-- C10: `Message.parse` does not terminate on the 7-byte input below: the
long-form length field 0xFFFFFFF9 recombines under JavaScript signed
32-bit arithmetic to -7, making the record parse succeed with
`consumed = 0`, so the scan offset never advances.  The loop body runs
out of any amount of fuel. -/
theorem messageParse_diverges_on_sign_overflowed_length :
    messageParse [0x01, 0x01, 0xFF, 0xFF, 0xFF, 0xF9, 0x55] = none ∧
    ∀ fuel, parseLoop fuel [0x01, 0x01, 0xFF, 0xFF, 0xFF, 0xF9, 0x55] 0 = none := by
  have key : ∀ fuel, parseLoop fuel [0x01, 0x01, 0xFF, 0xFF, 0xFF, 0xF9, 0x55] 0 = none := by
    intro fuel
    induction fuel with
    | zero => rfl
    | succ n ih =>
      rw [parseLoop]
      have h : (parseRecord [0x01, 0x01, 0xFF, 0xFF, 0xFF, 0xF9, 0x55] 0).1 =
          .ok ({ type := typeU, TNF := 1, bytes := [] }, 0) := by decide
      simp [h, ih]
  exact ⟨key _, key⟩

/-- `senddata(data)`: the bytes written to the port - the fixed 2-byte
header `0x4A 0xE5`, then the escaping loop, which pushes `0xE5` ahead of
any `0x4A` payload byte and then the byte itself. -/
def senddata (data : List Nat) : List Nat :=
  data.foldl (fun bytes b => bytes ++ (if b = 0x4a then [0xe5, b] else [b])) [0x4a, 0xe5]

theorem senddata_foldl (data acc : List Nat) :
    data.foldl (fun bytes b => bytes ++ (if b = 0x4a then [0xe5, b] else [b])) acc =
      acc ++ data.flatMap (fun b => if b = 0x4a then [0xe5, b] else [b]) := by
  induction data generalizing acc with
  | nil => simp
  | cons x xs ih => simp [ih, List.append_assoc]

/-- C8: for every outbound byte sequence, `senddata` emits the fixed
2-byte preamble `0x4A 0xE5` followed by the payload in order, each byte
equal to the marker `0x4A` preceded by one extra `0xE5`, every byte
itself emitted unchanged, and `0xE5` payload bytes receiving no
escaping (shown concretely by the last conjunct). -/
theorem senddata_byte_stuffing :
    (∀ data : List Nat,
      senddata data = 0x4a :: 0xe5 :: data.flatMap (fun b => if b = 0x4a then [0xe5, b] else [b])) ∧
    senddata [0xe5] = [0x4a, 0xe5, 0xe5] ∧
    senddata [0x4a] = [0x4a, 0xe5, 0xe5, 0x4a] := by
  refine ⟨fun data => ?_, by decide, by decide⟩
  rw [senddata, senddata_foldl]
  rfl

/-- `fromByte` recovers every header field that `toByte` packs, provided
the TNF fits its 3 bits. -/
theorem header_fromByte_toByte (h : Header) (htnf : h.TNF < 8) :
    Header.fromByte (Header.toByte h) = h := by
  obtain ⟨b1, b2, b3, b4, b5, tnf⟩ := h
  simp only at htnf
  interval_cases tnf <;> revert b1 b2 b3 b4 b5 <;> decide

theorem typeTNF_lt_8 (t : List Nat) : typeTNF t < 8 := by
  rw [typeTNF]
  split <;> norm_num

/-- Registered type names have length 1 or 15, and none contains a zero
code unit. -/
theorem typeKeys_facts :
    (∀ t ∈ typeKeys, 1 ≤ t.length ∧ t.length ≤ 255 ∧ (0 : Nat) ∉ t) := by
  decide

theorem find_typeKey (t : List Nat) (ht : t ∈ typeKeys) :
    typeKeys.find? (fun x => t == x) = some t := by
  fin_cases ht <;> decide

theorem jsGet_ofNat (data : List Nat) (k : Nat) : jsGet data (k : Int) = data.getD k 0 := by
  rw [jsGet]
  by_cases h : k < data.length
  · rw [if_pos ⟨Int.ofNat_nonneg k, by exact_mod_cast h⟩, Int.toNat_ofNat]
  · rw [if_neg (by omega), List.getD_eq_default _ _ (by omega)]

theorem jsGet_neg (data : List Nat) (i : Int) (h : i < 0) : jsGet data i = 0 := by
  rw [jsGet, if_neg (by omega)]

theorem jsGet_append_mid (a l b : List Nat) (k : Nat) (hk : k < l.length) :
    jsGet (a ++ l ++ b) ((a.length : Int) + (k : Int)) = l.getD k 0 := by
  have hcast : ((a.length : Int) + (k : Int)) = ((a.length + k : Nat) : Int) := by push_cast; ring
  rw [hcast, jsGet_ofNat, List.append_assoc,
    List.getD_append_right _ _ _ _ (Nat.le_add_right _ _), Nat.add_sub_cancel_left,
    List.getD_append _ _ _ _ hk]

theorem jsSlice_exact (a p b : List Nat) :
    jsSlice (a ++ p ++ b) ((a.length : Int)) ((a.length : Int) + (p.length : Int)) = p := by
  rw [jsSlice]
  have hn : ((a ++ p ++ b).length : Int) = (a.length : Int) + p.length + b.length := by
    push_cast [List.length_append]; ring
  rw [if_neg (by omega), if_neg (by omega)]
  rw [min_eq_left (by rw [hn]; omega), min_eq_left (by rw [hn]; omega)]
  have h1 : ((a.length : Int)).toNat = a.length := Int.toNat_ofNat _
  have h2 : ((a.length : Int) + (p.length : Int) - (a.length : Int)).toNat = p.length := by
    omega
  rw [h2, h1, List.append_assoc, List.drop_left, List.take_left]

theorem shiftLeft_lor_eq_add (x y k : Nat) (h : y < 2 ^ k) :
    (x <<< k) ||| y = x * 2 ^ k + y := by
  rw [Nat.shiftLeft_eq, Nat.mul_comm]
  exact (Nat.mul_add_lt_is_or h x).symm

theorem four_byte_recombine (b0 b1 b2 b3 : Nat)
    (h1 : b1 < 256) (h2 : b2 < 256) (h3 : b3 < 256) :
    b0 <<< 24 ||| b1 <<< 16 ||| b2 <<< 8 ||| b3 =
      b0 * 2 ^ 24 + b1 * 2 ^ 16 + b2 * 2 ^ 8 + b3 := by
  have e1 : b2 <<< 8 ||| b3 = b2 * 2 ^ 8 + b3 := shiftLeft_lor_eq_add _ _ _ (by omega)
  have e2 : b1 <<< 16 ||| (b2 * 2 ^ 8 + b3) = b1 * 2 ^ 16 + (b2 * 2 ^ 8 + b3) :=
    shiftLeft_lor_eq_add _ _ _ (by omega)
  have e3 : b0 <<< 24 ||| (b1 * 2 ^ 16 + (b2 * 2 ^ 8 + b3)) =
      b0 * 2 ^ 24 + (b1 * 2 ^ 16 + (b2 * 2 ^ 8 + b3)) :=
    shiftLeft_lor_eq_add _ _ _ (by omega)
  rw [Nat.lor_assoc, Nat.lor_assoc, e1, e2, e3]
  ring

theorem and_255_eq_mod (x : Nat) : x &&& 255 = x % 256 := by
  simpa using Nat.and_pow_two_sub_one_eq_mod x 8

/-- Recombining the four serialized big-endian length bytes of `L`
recovers `L` whenever `L` fits in 32 bits. -/
theorem length_bytes_roundtrip (L : Nat) (hL : L < 2 ^ 32) :
    (L >>> 24 &&& 0xff) <<< 24 ||| (L >>> 16 &&& 0xff) <<< 16 |||
      (L >>> 8 &&& 0xff) <<< 8 ||| (L &&& 0xff) = L := by
  rw [four_byte_recombine _ _ _ _ (by rw [and_255_eq_mod]; omega)
    (by rw [and_255_eq_mod]; omega) (by rw [and_255_eq_mod]; omega)]
  simp only [and_255_eq_mod, Nat.shiftRight_eq_div_pow]
  omega

theorem int32ofNat_small (n : Nat) (h : n < 2 ^ 31) : int32ofNat n = (n : Int) := by
  rw [int32ofNat]
  simp only [Nat.mod_eq_of_lt (by omega : n < 2 ^ 32)]
  rw [if_pos h]

end NFC

namespace NFC

def wellFormedRecord (r : Record) : Prop :=
  r.TNF = typeTNF r.type ∧
  ((r.type = typeT ∧ 3 ≤ r.bytes.length) ∨ (r.type = typeU ∧ 1 ≤ r.bytes.length) ∨
    r.type = typeAAR)

instance (r : Record) : Decidable (wellFormedRecord r) := by
  unfold wellFormedRecord
  infer_instance

theorem wf_type_mem (r : Record) (h : wellFormedRecord r) : r.type ∈ typeKeys := by
  rcases h.2 with ⟨h1, _⟩ | ⟨h1, _⟩ | h1 <;> rw [h1] <;> decide

set_option maxHeartbeats 1000000 in
theorem parseRecord_encode (a b : List Nat) (r : Record) (first last : Bool)
    (hwf : wellFormedRecord r) (hlen : r.bytes.length < 2 ^ 31) :
    (parseRecord (a ++ recordGetBytes r first last ++ b) (a.length : Int)).1 =
      .ok (r, ((recordGetBytes r first last).length : Int)) := by
  have hty : r.type ∈ typeKeys := wf_type_mem r hwf
  obtain ⟨htnf, hmin⟩ := hwf
  obtain ⟨T, tnf, bytes⟩ := r
  simp only at hty htnf hmin hlen
  have hTlen1 : 1 ≤ T.length := (typeKeys_facts T hty).1
  by_cases hshort : bytes.length < 0x100
  · -- short-record case
    have hencdef : recordGetBytes ⟨T, tnf, bytes⟩ first last =
        Header.toByte ⟨first, last, false, decide (bytes.length < 0x100), false, tnf⟩ ::
        T.length :: ([bytes.length] ++ T ++ bytes) := by
      simp only [recordGetBytes, if_pos hshort]
    have hencl : (recordGetBytes ⟨T, tnf, bytes⟩ first last).length = 3 + T.length + bytes.length := by
      rw [hencdef]; simp [List.length_append]; omega
    have hHdr : Header.fromByte (Header.toByte ⟨first, last, false, decide (bytes.length < 0x100), false, tnf⟩)
        = ⟨first, last, false, decide (bytes.length < 0x100), false, tnf⟩ :=
      header_fromByte_toByte _ (by show tnf < 8; rw [htnf]; exact typeTNF_lt_8 T)
    have hr0 : jsGet (a ++ recordGetBytes ⟨T, tnf, bytes⟩ first last ++ b) (a.length : Int)
        = Header.toByte ⟨first, last, false, decide (bytes.length < 0x100), false, tnf⟩ := by
      have h := jsGet_append_mid a (recordGetBytes ⟨T, tnf, bytes⟩ first last) b 0 (by omega)
      simpa [hencdef] using h
    have hr1 : jsGet (a ++ recordGetBytes ⟨T, tnf, bytes⟩ first last ++ b) ((a.length : Int) + 1)
        = T.length := by
      have h := jsGet_append_mid a (recordGetBytes ⟨T, tnf, bytes⟩ first last) b 1 (by omega)
      push_cast at h
      simpa [hencdef] using h
    have hr2 : jsGet (a ++ recordGetBytes ⟨T, tnf, bytes⟩ first last ++ b) ((a.length : Int) + 2)
        = bytes.length := by
      have h := jsGet_append_mid a (recordGetBytes ⟨T, tnf, bytes⟩ first last) b 2 (by omega)
      push_cast at h
      simpa [hencdef, List.getD_append, List.getD_cons_succ] using h
    rw [parseRecord]
    rw [if_neg (by push_cast [List.length_append, hencl]; omega)]
    simp only [hr0, hHdr, hr1, hr2, decide_eq_true_eq, if_pos hshort]
    rw [if_neg (by push_cast [List.length_append, hencl]; omega)]
    have hRT : List.map (fun i : Nat => jsGet (a ++ recordGetBytes ⟨T, tnf, bytes⟩ first last ++ b)
        ((a.length : Int) + 2 + 1 + (i : Int))) (List.range T.length) = T := by
      apply List.ext_getElem
      · simp
      intro i h1 h2
      simp only [List.getElem_map, List.getElem_range]
      have h := jsGet_append_mid a (recordGetBytes ⟨T, tnf, bytes⟩ first last) b (i + 3)
        (by rw [hencl]; omega)
      push_cast at h
      rw [show (a.length : Int) + 2 + 1 + (i : Int) = (a.length : Int) + ((i : Int) + 3) by ring, h,
        hencdef]
      simp only [List.getD_cons_succ]
      rw [List.getD_append _ _ _ _ (by simp; omega)]
      rw [List.getD_append_right _ _ _ _ (by simp)]
      simp only [List.length_cons, List.length_nil, Nat.add_sub_cancel]
      exact List.getD_eq_getElem _ _ h2
    have hslice : jsSlice (a ++ recordGetBytes ⟨T, tnf, bytes⟩ first last ++ b)
        ((a.length : Int) + 2 + 1 + (T.length : Int))
        ((a.length : Int) + 2 + 1 + (T.length : Int) + (bytes.length : Int)) = bytes := by
      have hsplit : a ++ recordGetBytes ⟨T, tnf, bytes⟩ first last ++ b =
          (a ++ (Header.toByte ⟨first, last, false, decide (bytes.length < 0x100), false, tnf⟩ ::
            T.length :: ([bytes.length] ++ T))) ++ bytes ++ b := by
        rw [hencdef]; simp [List.append_assoc]
      have h := jsSlice_exact (a ++ (Header.toByte ⟨first, last, false,
        decide (bytes.length < 0x100), false, tnf⟩ :: T.length :: ([bytes.length] ++ T))) bytes b
      have hl : (((a ++ (Header.toByte ⟨first, last, false, decide (bytes.length < 0x100), false,
          tnf⟩ :: T.length :: ([bytes.length] ++ T))).length : Nat) : Int)
          = (a.length : Int) + 2 + 1 + (T.length : Int) := by
        simp only [List.length_append, List.length_cons, List.length_nil]
        push_cast
        ring
      rw [hl] at h
      rw [hsplit]
      exact h
    simp only [hRT, find_typeKey T hty, hslice]
    have hfb : factoryBytes T bytes = bytes := by
      rw [factoryBytes]
      split
      · rename_i hT
        rcases hmin with ⟨_, h3⟩ | ⟨hU, _⟩ | hA
        · rw [if_neg (by omega)]
        · exact absurd (hT ▸ hU) (by decide)
        · exact absurd (hT ▸ hA) (by decide)
      · rfl
    simp only [mkRecord, hfb, ← htnf, hencl, Except.ok.injEq, Prod.mk.injEq]
    refine ⟨trivial, ?_⟩
    push_cast
    ring
  · -- long-record case
    have hencdef : recordGetBytes ⟨T, tnf, bytes⟩ first last =
        Header.toByte ⟨first, last, false, decide (bytes.length < 0x100), false, tnf⟩ ::
        T.length :: ([bytes.length >>> 24 &&& 0xff, bytes.length >>> 16 &&& 0xff,
          bytes.length >>> 8 &&& 0xff, bytes.length &&& 0xff] ++ T ++ bytes) := by
      simp only [recordGetBytes, if_neg hshort]
    have hencl : (recordGetBytes ⟨T, tnf, bytes⟩ first last).length
        = 6 + T.length + bytes.length := by
      rw [hencdef]; simp [List.length_append]; omega
    have hHdr : Header.fromByte (Header.toByte ⟨first, last, false,
        decide (bytes.length < 0x100), false, tnf⟩)
        = ⟨first, last, false, decide (bytes.length < 0x100), false, tnf⟩ :=
      header_fromByte_toByte _ (by show tnf < 8; rw [htnf]; exact typeTNF_lt_8 T)
    have hr0 : jsGet (a ++ recordGetBytes ⟨T, tnf, bytes⟩ first last ++ b) (a.length : Int)
        = Header.toByte ⟨first, last, false, decide (bytes.length < 0x100), false, tnf⟩ := by
      have h := jsGet_append_mid a (recordGetBytes ⟨T, tnf, bytes⟩ first last) b 0 (by omega)
      simpa [hencdef] using h
    have hr1 : jsGet (a ++ recordGetBytes ⟨T, tnf, bytes⟩ first last ++ b) ((a.length : Int) + 1)
        = T.length := by
      have h := jsGet_append_mid a (recordGetBytes ⟨T, tnf, bytes⟩ first last) b 1 (by omega)
      push_cast at h
      simpa [hencdef] using h
    have hr2 : jsGet (a ++ recordGetBytes ⟨T, tnf, bytes⟩ first last ++ b) ((a.length : Int) + 2)
        = bytes.length >>> 24 &&& 0xff := by
      have h := jsGet_append_mid a (recordGetBytes ⟨T, tnf, bytes⟩ first last) b 2 (by omega)
      push_cast at h
      simpa [hencdef, List.getD_append, List.getD_cons_succ] using h
    have hr3 : jsGet (a ++ recordGetBytes ⟨T, tnf, bytes⟩ first last ++ b) ((a.length : Int) + 3)
        = bytes.length >>> 16 &&& 0xff := by
      have h := jsGet_append_mid a (recordGetBytes ⟨T, tnf, bytes⟩ first last) b 3 (by omega)
      push_cast at h
      simpa [hencdef, List.getD_append, List.getD_cons_succ] using h
    have hr4 : jsGet (a ++ recordGetBytes ⟨T, tnf, bytes⟩ first last ++ b) ((a.length : Int) + 4)
        = bytes.length >>> 8 &&& 0xff := by
      have h := jsGet_append_mid a (recordGetBytes ⟨T, tnf, bytes⟩ first last) b 4 (by omega)
      push_cast at h
      simpa [hencdef, List.getD_append, List.getD_cons_succ] using h
    have hr5 : jsGet (a ++ recordGetBytes ⟨T, tnf, bytes⟩ first last ++ b) ((a.length : Int) + 5)
        = bytes.length &&& 0xff := by
      have h := jsGet_append_mid a (recordGetBytes ⟨T, tnf, bytes⟩ first last) b 5 (by omega)
      push_cast at h
      simpa [hencdef, List.getD_append, List.getD_cons_succ] using h
    have hrec : int32ofNat ((bytes.length >>> 24 &&& 0xff) <<< 24 |||
        (bytes.length >>> 16 &&& 0xff) <<< 16 ||| (bytes.length >>> 8 &&& 0xff) <<< 8 |||
        (bytes.length &&& 0xff)) = (bytes.length : Int) := by
      rw [length_bytes_roundtrip _ (by omega), int32ofNat_small _ hlen]
    rw [parseRecord]
    rw [if_neg (by push_cast [List.length_append, hencl]; omega)]
    simp only [hr0, hHdr, hr1, hr2, hr3, hr4, hr5, decide_eq_true_eq, if_neg hshort, hrec]
    rw [if_neg (by push_cast [List.length_append, hencl]; omega)]
    have hRT : List.map (fun i : Nat => jsGet (a ++ recordGetBytes ⟨T, tnf, bytes⟩ first last ++ b)
        ((a.length : Int) + 2 + 4 + (i : Int))) (List.range T.length) = T := by
      apply List.ext_getElem
      · simp
      intro i h1 h2
      simp only [List.getElem_map, List.getElem_range]
      have h := jsGet_append_mid a (recordGetBytes ⟨T, tnf, bytes⟩ first last) b (i + 6)
        (by rw [hencl]; omega)
      push_cast at h
      rw [show (a.length : Int) + 2 + 4 + (i : Int) = (a.length : Int) + ((i : Int) + 6) by ring, h,
        hencdef]
      simp only [List.getD_cons_succ]
      rw [List.getD_append _ _ _ _ (by simp; omega)]
      rw [List.getD_append_right _ _ _ _ (by simp)]
      simp only [List.length_cons, List.length_nil, Nat.add_sub_cancel]
      exact List.getD_eq_getElem _ _ h2
    have hslice : jsSlice (a ++ recordGetBytes ⟨T, tnf, bytes⟩ first last ++ b)
        ((a.length : Int) + 2 + 4 + (T.length : Int))
        ((a.length : Int) + 2 + 4 + (T.length : Int) + (bytes.length : Int)) = bytes := by
      have hsplit : a ++ recordGetBytes ⟨T, tnf, bytes⟩ first last ++ b =
          (a ++ (Header.toByte ⟨first, last, false, decide (bytes.length < 0x100), false, tnf⟩ ::
            T.length :: ([bytes.length >>> 24 &&& 0xff, bytes.length >>> 16 &&& 0xff,
              bytes.length >>> 8 &&& 0xff, bytes.length &&& 0xff] ++ T))) ++ bytes ++ b := by
        rw [hencdef]; simp [List.append_assoc]
      have h := jsSlice_exact (a ++ (Header.toByte ⟨first, last, false,
        decide (bytes.length < 0x100), false, tnf⟩ :: T.length ::
          ([bytes.length >>> 24 &&& 0xff, bytes.length >>> 16 &&& 0xff,
            bytes.length >>> 8 &&& 0xff, bytes.length &&& 0xff] ++ T))) bytes b
      have hl : (((a ++ (Header.toByte ⟨first, last, false, decide (bytes.length < 0x100), false,
          tnf⟩ :: T.length :: ([bytes.length >>> 24 &&& 0xff, bytes.length >>> 16 &&& 0xff,
            bytes.length >>> 8 &&& 0xff, bytes.length &&& 0xff] ++ T))).length : Nat) : Int)
          = (a.length : Int) + 2 + 4 + (T.length : Int) := by
        simp only [List.length_append, List.length_cons, List.length_nil]
        push_cast
        ring
      rw [hl] at h
      rw [hsplit]
      exact h
    simp only [hRT, find_typeKey T hty, hslice]
    have hfb : factoryBytes T bytes = bytes := by
      rw [factoryBytes]
      split
      · rename_i hT
        rcases hmin with ⟨_, h3⟩ | ⟨hU, _⟩ | hA
        · rw [if_neg (by omega)]
        · exact absurd (hT ▸ hU) (by decide)
        · exact absurd (hT ▸ hA) (by decide)
      · rfl
    simp only [mkRecord, hfb, ← htnf, hencl, Except.ok.injEq, Prod.mk.injEq]
    refine ⟨trivial, ?_⟩
    push_cast
    ring

end NFC

namespace NFC

theorem getBytesGo_length_ge (first : Bool) (rs : List Record) :
    rs.length ≤ (getBytesGo first rs).length := by
  induction rs generalizing first with
  | nil => simp [getBytesGo]
  | cons r rest ih =>
    simp only [getBytesGo, List.length_append, List.length_cons]
    have h := ih false
    have h1 : 1 ≤ (recordGetBytes r first rest.isEmpty).length := by
      rw [recordGetBytes]; simp
    omega

theorem parseLoop_encodeAll (rs : List Record) :
    ∀ (first : Bool) (a : List Nat) (fuel : Nat),
      (∀ r ∈ rs, wellFormedRecord r ∧ r.bytes.length < 2 ^ 31) →
      rs.length < fuel →
      parseLoop fuel (a ++ getBytesGo first rs) (a.length : Int) = some (.ok rs) := by
  induction rs with
  | nil =>
    intro first a fuel h hfuel
    match fuel, hfuel with
    | fuel + 1, _ =>
      rw [parseLoop]
      rw [if_neg (by simp [getBytesGo])]
  | cons r rest ih =>
    intro first a fuel h hfuel
    match fuel, hfuel with
    | fuel + 1, hfuel =>
      rw [parseLoop]
      rw [if_pos (by
        simp only [getBytesGo, List.length_append, List.length_cons]
        have h1 : 1 ≤ (recordGetBytes r first rest.isEmpty).length := by
          rw [recordGetBytes]; simp
        push_cast
        omega)]
      have henc := parseRecord_encode a (getBytesGo false rest) r first rest.isEmpty
        (h r (by simp)).1 (h r (by simp)).2
      rw [show a ++ getBytesGo first (r :: rest) =
        a ++ recordGetBytes r first rest.isEmpty ++ getBytesGo false rest by
          rw [getBytesGo]; rw [List.append_assoc]]
      simp only [henc]
      have hoff : (a.length : Int) + ((recordGetBytes r first rest.isEmpty).length : Int) =
          (((a ++ recordGetBytes r first rest.isEmpty).length : Nat) : Int) := by
        push_cast [List.length_append]; ring
      rw [hoff]
      have hrest := ih false (a ++ recordGetBytes r first rest.isEmpty) fuel
        (fun x hx => h x (by simp [hx])) (by simpa using hfuel)
      rw [show (a ++ recordGetBytes r first rest.isEmpty) ++ getBytesGo false rest =
        a ++ recordGetBytes r first rest.isEmpty ++ getBytesGo false rest from rfl] at hrest
      rw [hrest]
      rfl

/-- C1 (amended): for every well-formed message whose records each carry a
payload shorter than 2^31 bytes, parsing the serialized bytes yields back
exactly the same record sequence. -/
theorem messageParse_getBytes_roundtrip (rs : List Record)
    (h : ∀ r ∈ rs, wellFormedRecord r ∧ r.bytes.length < 2 ^ 31) :
    messageParse (messageGetBytes rs) = some (.ok rs) := by
  have hfuel : rs.length < (messageGetBytes rs).length + 3 := by
    have hg := getBytesGo_length_ge true rs
    simp only [messageGetBytes] at *
    omega
  have h2 := parseLoop_encodeAll rs true [] ((messageGetBytes rs).length + 3) h hfuel
  simpa [messageParse, messageGetBytes] using h2

theorem messageParse_getBytes_roundtrip_witness :
    messageParse (messageGetBytes [uriRecordOf "http://www.example.com"]) =
      some (.ok [uriRecordOf "http://www.example.com"]) :=
  messageParse_getBytes_roundtrip _ (by decide)

end NFC

namespace NFC


end NFC

namespace NFC

/-- A URI-record payload of exactly 2^31 bytes. -/
def bigPayload : List Nat := 1 :: List.replicate (2 ^ 31 - 1) 97

/-- A well-formed URI record (registered type, minimum payload shape met)
whose payload length 2^31 sets the sign bit of the serialized length
field. -/
def monsterRecord : Record := { type := typeU, TNF := 1, bytes := bigPayload }

def smallPre : List Nat := [0xC1, 1, 128, 0, 0, 0, 85]

theorem bigPayload_length : bigPayload.length = 2 ^ 31 := by
  rw [bigPayload, List.length_cons, List.length_replicate]
  norm_num

theorem recordGetBytes_long (T : List Nat) (tnf : Nat) (bytes : List Nat) (first last : Bool)
    (h : ¬ bytes.length < 0x100) :
    recordGetBytes ⟨T, tnf, bytes⟩ first last =
      Header.toByte ⟨first, last, false, false, false, tnf⟩ ::
      T.length :: ([bytes.length >>> 24 &&& 0xff, bytes.length >>> 16 &&& 0xff,
        bytes.length >>> 8 &&& 0xff, bytes.length &&& 0xff] ++ T ++ bytes) := by
  simp only [recordGetBytes, if_neg h, decide_eq_false h]

theorem monster_enc : messageGetBytes [monsterRecord] = smallPre ++ bigPayload := by
  have h0 : messageGetBytes [monsterRecord] = recordGetBytes monsterRecord true true ++ [] := rfl
  rw [h0, List.append_nil]
  rw [show monsterRecord = ⟨typeU, 1, bigPayload⟩ from rfl]
  rw [recordGetBytes_long typeU 1 bigPayload true true (by rw [bigPayload_length]; norm_num)]
  rw [bigPayload_length]
  have e1 : (2 ^ 31 : Nat) >>> 24 &&& 0xff = 128 := by
    rw [Nat.shiftRight_eq_div_pow, and_255_eq_mod]; norm_num
  have e2 : (2 ^ 31 : Nat) >>> 16 &&& 0xff = 0 := by
    rw [Nat.shiftRight_eq_div_pow, and_255_eq_mod]; norm_num
  have e3 : (2 ^ 31 : Nat) >>> 8 &&& 0xff = 0 := by
    rw [Nat.shiftRight_eq_div_pow, and_255_eq_mod]; norm_num
  have e4 : (2 ^ 31 : Nat) &&& 0xff = 0 := by
    rw [and_255_eq_mod]; norm_num
  rw [e1, e2, e3, e4]
  rw [show Header.toByte ⟨true, true, false, false, false, 1⟩ = 0xC1 from by decide]
  rw [show typeU = [85] from by decide]
  rfl

end NFC

namespace NFC

theorem smallPre_bigPayload_length : (smallPre ++ bigPayload).length = 2147483655 := by
  rw [List.length_append, bigPayload_length]
  norm_num [smallPre]

theorem smallPre_bigPayload_length_int :
    (((smallPre ++ bigPayload).length : Nat) : Int) = 2147483655 := by
  rw [smallPre_bigPayload_length]; norm_num

theorem jsSlice_drop_take (data : List Nat) (hlen : data.length = 2147483655) :
    jsSlice data 7 (-2147483641) = (data.drop 7).take 7 := by
  rw [jsSlice]
  rw [show ((data.length : Int)) = 2147483655 by rw [hlen]; norm_num]
  rw [if_neg (show ¬ ((7 : Int) < 0) by norm_num),
    if_pos (show ((-2147483641 : Int) < 0) by norm_num)]
  norm_num
  rw [show Int.toNat 7 = 7 from rfl]

set_option maxRecDepth 8192 in
theorem parseRecord_smallPre (bytes : List Nat) (hlen : bytes.length = 2 ^ 31) :
    (parseRecord (smallPre ++ bytes) 0).1 =
      .ok ({ type := typeU, TNF := 1, bytes := bytes.take 7 }, -2147483641) := by
  have hlen7 : (((smallPre ++ bytes).length : Nat) : Int) = 2147483655 := by
    rw [List.length_append, hlen]; norm_num [smallPre]
  have gr : ∀ (k : Nat), k < 7 →
      jsGet (smallPre ++ bytes) ((k : Nat) : Int) = smallPre.getD k 0 := by
    intro k hk
    rw [jsGet_ofNat, List.getD_append _ _ _ _ (by simpa [smallPre] using hk)]
  have g0 : jsGet (smallPre ++ bytes) 0 = 193 := by
    rw [show (0 : Int) = ((0 : Nat) : Int) by norm_num, gr 0 (by norm_num)]; decide
  have g1 : jsGet (smallPre ++ bytes) (0 + 1) = 1 := by
    rw [show (0 + 1 : Int) = ((1 : Nat) : Int) by norm_num, gr 1 (by norm_num)]; decide
  have g2 : jsGet (smallPre ++ bytes) (0 + 2) = 128 := by
    rw [show (0 + 2 : Int) = ((2 : Nat) : Int) by norm_num, gr 2 (by norm_num)]; decide
  have g3 : jsGet (smallPre ++ bytes) (0 + 3) = 0 := by
    rw [show (0 + 3 : Int) = ((3 : Nat) : Int) by norm_num, gr 3 (by norm_num)]; decide
  have g4 : jsGet (smallPre ++ bytes) (0 + 4) = 0 := by
    rw [show (0 + 4 : Int) = ((4 : Nat) : Int) by norm_num, gr 4 (by norm_num)]; decide
  have g5 : jsGet (smallPre ++ bytes) (0 + 5) = 0 := by
    rw [show (0 + 5 : Int) = ((5 : Nat) : Int) by norm_num, gr 5 (by norm_num)]; decide
  have hh : Header.fromByte 193 = ⟨true, true, false, false, false, 1⟩ := by decide
  have hrl : int32ofNat (128 <<< 24 ||| 0 <<< 16 ||| 0 <<< 8 ||| 0) = -2147483648 := by decide
  have g6 : jsGet (smallPre ++ bytes) (6 : Int) = 85 := by
    rw [show (6 : Int) = ((6 : Nat) : Int) by norm_num, gr 6 (by norm_num)]; decide
  have hf : List.find? (fun t => [85] == t) typeKeys = some typeU := by decide
  have hslice : jsSlice (smallPre ++ bytes) 7 (-2147483641) = bytes.take 7 := by
    rw [jsSlice_drop_take _ (by rw [List.length_append, hlen]; norm_num [smallPre])]
    rw [show (smallPre ++ bytes).drop 7 = bytes from List.drop_left smallPre bytes]
  rw [parseRecord]
  rw [if_neg (by rw [hlen7]; norm_num)]
  rw [g0, hh, g1, g2, g3, g4, g5]
  rw [hlen7]
  have hrange : List.range 1 = [0] := rfl
  simp only [hrange, List.map_cons, List.map_nil, Nat.cast_zero, Nat.cast_one, hrl]
  have hff : ¬ (false = true) := by decide
  rw [if_neg hff, if_neg hff]
  norm_num [g6, hf]
  rw [hslice]
  rfl

theorem bigPayload_take7 : bigPayload.take 7 = 1 :: List.replicate 6 97 := by
  rw [bigPayload]
  rw [show (1 :: List.replicate (2 ^ 31 - 1) 97).take 7
      = 1 :: (List.replicate (2 ^ 31 - 1) 97).take 6 from rfl]
  rw [List.take_replicate]
  rw [show min 6 (2 ^ 31 - 1) = 6 from by norm_num]

theorem step1 : (parseRecord (smallPre ++ bigPayload) 0).1 =
    .ok ({ type := typeU, TNF := 1, bytes := 1 :: List.replicate 6 97 }, -2147483641) := by
  have h := parseRecord_smallPre bigPayload bigPayload_length
  rw [bigPayload_take7] at h
  exact h

theorem parseRecord_neg_offset (data : List Nat) (offset : Int)
    (hoff : offset + 5 < 0)
    (hrem2 : 0 ≤ (data.length : Int) - (offset + 6)) :
    (parseRecord data offset).1 = .error (.unsupportedType []) := by
  have n0 : jsGet data offset = 0 := jsGet_neg _ _ (by omega)
  have n1 : jsGet data (offset + 1) = 0 := jsGet_neg _ _ (by omega)
  have n2 : jsGet data (offset + 2) = 0 := jsGet_neg _ _ (by omega)
  have n3 : jsGet data (offset + 3) = 0 := jsGet_neg _ _ (by omega)
  have n4 : jsGet data (offset + 4) = 0 := jsGet_neg _ _ (by omega)
  have n5 : jsGet data (offset + 5) = 0 := jsGet_neg _ _ (by omega)
  have hh : Header.fromByte 0 = ⟨false, false, false, false, false, 0⟩ := by decide
  have hz : int32ofNat (0 <<< 24 ||| 0 <<< 16 ||| 0 <<< 8 ||| 0) = 0 := by decide
  rw [parseRecord]
  rw [if_neg (by omega)]
  rw [n0, hh, n1, n2, n3, n4, n5]
  have hrange : List.range 0 = [] := rfl
  simp only [hrange, List.map_nil, Nat.cast_zero, hz]
  have hff : ¬ (false = true) := by decide
  rw [if_neg hff, if_neg hff]
  rw [if_neg (by omega)]
  have hfe : List.find? (fun t => ([] : List Nat) == t) typeKeys = none := by decide
  rw [hfe]

theorem step2 : (parseRecord (smallPre ++ bigPayload) (-2147483641)).1 =
    .error (.unsupportedType []) :=
  parseRecord_neg_offset _ _ (by norm_num)
    (by rw [smallPre_bigPayload_length_int]; norm_num)

theorem parseLoop_two_steps (data : List Nat) (r : Record)
    (h1 : (parseRecord data 0).1 = .ok (r, -2147483641))
    (h2 : (parseRecord data (-2147483641)).1 = .error (.unsupportedType []))
    (hlen : ((data.length : Nat) : Int) = 2147483655) :
    ∀ fuel : Nat, parseLoop (fuel + 2) data 0 = some (.error (.unsupportedType [])) := by
  intro fuel
  rw [parseLoop]
  rw [if_pos (by rw [hlen]; norm_num)]
  simp only [h1]
  rw [show (0 + -2147483641 : Int) = -2147483641 from by norm_num]
  rw [parseLoop]
  rw [if_pos (by rw [hlen]; norm_num)]
  simp only [h2]
  rfl

theorem parseLoop_monster : ∀ fuel : Nat,
    parseLoop (fuel + 2) (smallPre ++ bigPayload) 0 = some (.error (.unsupportedType [])) :=
  parseLoop_two_steps _ _ step1 step2 smallPre_bigPayload_length_int

theorem messageParse_monster : messageParse (messageGetBytes [monsterRecord]) =
    some (.error (.unsupportedType [])) := by
  rw [monster_enc, messageParse, smallPre_bigPayload_length]
  rw [show (2147483655 + 3 : Nat) = 2147483656 + 2 from by norm_num]
  exact parseLoop_monster 2147483656

/-- C1 counterexample: the single-record message holding a URI record with
a 2^31-byte payload is well-formed in the claim's sense (registered type,
minimum payload shape, type-name length 1), yet serializing and re-parsing
it does not reproduce the record: the length field's sign bit makes the
signed 32-bit reassembled length -2^31, the first parse step consumes
7 - 2^31 bytes, and the scan then fails at a negative offset with an
unsupported-record-type error. -/
theorem messageParse_getBytes_roundtrip_cex :
    wellFormedRecord monsterRecord ∧
    messageParse (messageGetBytes [monsterRecord]) = some (.error (.unsupportedType [])) ∧
    messageParse (messageGetBytes [monsterRecord]) ≠ some (.ok [monsterRecord]) := by
  refine ⟨⟨rfl, Or.inr (Or.inl ⟨rfl, ?_⟩)⟩, messageParse_monster, ?_⟩
  · rw [show monsterRecord.bytes = bigPayload from rfl, bigPayload_length]
    norm_num
  · rw [messageParse_monster]
    simp

end NFC

namespace NFC

/-- The frame-layer session variables (`state`, `inbound`,
`inboundCount`, `inboundResponse` in the comms module).  `COMMS_STATE`
values: NULL = 0, LEN = 1, DATA = 2, INFO = 3. -/
structure CState where
  state : Nat
  inbound : List Nat
  inboundCount : Int
  inboundResponse : Nat
deriving DecidableEq

/-- The module-level initial values. -/
def initState : CState :=
  { state := 0, inbound := [], inboundCount := 0, inboundResponse := 0 }

/-- The events `processdata` emits as `comms-event`, by `COMMS_EVENT_TYPE`
and payload: INFORMATION text, ACK/ERROR/INTERRUPT info bytes (plus the
event the INFO state emits when `inbound[0]` matches no known code, whose
`type` field JavaScript leaves undefined), the caught-exception ERROR,
raw DATA, and decoded NDEF_MESSAGE. -/
inductive CommsEvent
  | information (msg : List Nat)
  | ackEvt (b : Nat)
  | errorData (b : Nat)
  | errorMsg (e : NdefError)
  | interruptEvt (b : Nat)
  | untyped (b : Nat)
  | dataEvt (bytes : List Nat)
  | ndefMessage (records : List Record)
deriving DecidableEq

/-- What can escape `processdata`: the uncaught `throw` on an unexpected
inbound response type, or - in the model only - the embedded
`Message.parse` failing to terminate within its fuel (the source would
loop forever there). -/
inductive RunFault
  | unexpectedResponse (code : Nat)
  | parseDiverged
deriving DecidableEq

/-- One iteration of the `processdata` loop body on byte `b`: the next
session state, the events emitted during the iteration, and the
characters appended to the call-local information string `s`
(printable bytes kept, others replaced by `?`). -/
def stepByte (st : CState) (b : Nat) :
    Except RunFault (CState × List CommsEvent × List Nat) :=
  if st.state = 3 then
    let h := st.inbound.getD 0 0
    let evt := if h = 0xA1 then CommsEvent.ackEvt b
      else if h = 0xEF then CommsEvent.errorData b
      else if h = 0xA4 then CommsEvent.interruptEvt b
      else CommsEvent.untyped b
    .ok ({ st with state := 0 }, [evt], [])
  else if st.state = 1 then
    let inbound1 := st.inbound ++ [b]
    if inbound1.length = 2 then
      .ok (⟨2, [], ((inbound1.getD 0 0 <<< 8 ||| inbound1.getD 1 0 : Nat) : Int),
        st.inboundResponse⟩, [], [])
    else .ok ({ st with inbound := inbound1 }, [], [])
  else if st.state = 2 then
    let inbound1 := st.inbound ++ [b]
    if (inbound1.length : Int) = st.inboundCount then
      if st.inboundResponse = 0xA5 then
        match messageParse inbound1 with
        | none => .error .parseDiverged
        | some (.ok msg) =>
          .ok ({ st with state := 0, inbound := inbound1 }, [.ndefMessage msg], [])
        | some (.error e) =>
          .ok ({ st with state := 0, inbound := inbound1 }, [.errorMsg e], [])
      else if st.inboundResponse = 0xA2 ∨ st.inboundResponse = 0xA0 then
        .ok ({ st with state := 0, inbound := inbound1 }, [.dataEvt inbound1], [])
      else .error (.unexpectedResponse st.inboundResponse)
    else .ok ({ st with inbound := inbound1 }, [], [])
  else
    if b = 0xA5 then
      .ok ({ state := 1, inbound := [], inboundCount := -1, inboundResponse := 0xA5 }, [], [])
    else if b = 0xA2 ∨ b = 0xA0 then
      .ok ({ state := 2, inbound := [], inboundCount := 2, inboundResponse := 0xA2 }, [], [])
    else if b = 0xA1 ∨ b = 0xEF ∨ b = 0xA4 then
      .ok ({ st with state := 3, inbound := [b] }, [], [])
    else
      .ok (st, [], [if 0x20 ≤ b ∧ b ≤ 0x80 then b else 63])

/-- The `for` loop of `processdata` over the bytes of one call, threading
the session state and accumulating the emitted events and the local
information string. -/
def runBytes (st : CState) : List Nat → Except RunFault (CState × List CommsEvent × List Nat)
  | [] => .ok (st, [], [])
  | b :: rest =>
    match stepByte st b with
    | .error f => .error f
    | .ok (st1, evs1, s1) =>
      match runBytes st1 rest with
      | .error f => .error f
      | .ok (st2, evs2, s2) => .ok (st2, evs1 ++ evs2, s1 ++ s2)

/-- `processdata(data)`: run the loop, then flush the information string
as one INFORMATION event if it is non-empty. -/
def processdata (st : CState) (data : List Nat) : Except RunFault (CState × List CommsEvent) :=
  match runBytes st data with
  | .error f => .error f
  | .ok (st1, evs, s) => .ok (st1, evs ++ (if s = [] then [] else [.information s]))

/-- Successive `processdata` calls, one per arriving chunk. -/
def feedChunks (st : CState) : List (List Nat) → Except RunFault (CState × List CommsEvent)
  | [] => .ok (st, [])
  | c :: cs =>
    match processdata st c with
    | .error f => .error f
    | .ok (st1, evs1) =>
      match feedChunks st1 cs with
      | .error f => .error f
      | .ok (st2, evs2) => .ok (st2, evs1 ++ evs2)

def isInformation : CommsEvent → Bool
  | .information _ => true
  | _ => false

/-- The non-INFORMATION events of a trace, in order. -/
def nonInfoEvents (evs : List CommsEvent) : List CommsEvent :=
  evs.filter fun e => !(isInformation e)

/-- The concatenated text carried by the INFORMATION events of a trace. -/
def infoText (evs : List CommsEvent) : List Nat :=
  evs.flatMap fun e => match e with | .information s => s | _ => []

end NFC

namespace NFC

theorem runBytes_append (st : CState) (xs ys : List Nat) :
    runBytes st (xs ++ ys) =
      match runBytes st xs with
      | .error f => .error f
      | .ok (st1, e1, s1) =>
        match runBytes st1 ys with
        | .error f => .error f
        | .ok (st2, e2, s2) => .ok (st2, (e1 ++ e2 : List CommsEvent), (s1 ++ s2 : List Nat)) := by
  induction xs generalizing st with
  | nil =>
    simp only [List.nil_append, runBytes]
    cases hys : runBytes st ys with
    | error f => rfl
    | ok r =>
      obtain ⟨a, e2, s2⟩ := r
      simp
  | cons x rest ih =>
    rw [List.cons_append, runBytes, runBytes]
    cases hx : stepByte st x with
    | error f => rfl
    | ok r =>
      obtain ⟨st1, e1, s1⟩ := r
      dsimp only
      rw [ih st1]
      cases hrest : runBytes st1 rest with
      | error f => rfl
      | ok r2 =>
        obtain ⟨st2, e2, s2⟩ := r2
        dsimp only
        cases hys : runBytes st2 ys with
        | error f => rfl
        | ok r3 =>
          obtain ⟨st3, e3, s3⟩ := r3
          dsimp only
          simp [List.append_assoc]

theorem stepByte_no_info (st : CState) (b : Nat) (st1 : CState) (evs : List CommsEvent)
    (s : List Nat) (h : stepByte st b = .ok (st1, evs, s)) :
    ∀ e ∈ evs, isInformation e = false := by
  rw [stepByte] at h
  dsimp only at h
  repeat' split at h
  all_goals first
    | (simp only [Except.ok.injEq, Prod.mk.injEq] at h; obtain ⟨-, he, -⟩ := h; subst he; simp [isInformation])
    | simp at h


theorem runBytes_no_info (data : List Nat) (st : CState) (st1 : CState)
    (evs : List CommsEvent) (s : List Nat) (h : runBytes st data = .ok (st1, evs, s)) :
    ∀ e ∈ evs, isInformation e = false := by
  induction data generalizing st st1 evs s with
  | nil =>
    simp only [runBytes, Except.ok.injEq, Prod.mk.injEq] at h
    obtain ⟨-, he, -⟩ := h
    subst he
    simp
  | cons b rest ih =>
    rw [runBytes] at h
    cases hb : stepByte st b with
    | error f => rw [hb] at h; exact absurd h (by simp)
    | ok r =>
      obtain ⟨sta, e1, s1⟩ := r
      rw [hb] at h
      dsimp only at h
      cases hr : runBytes sta rest with
      | error f => rw [hr] at h; exact absurd h (by simp)
      | ok r2 =>
        obtain ⟨stb, e2, s2⟩ := r2
        rw [hr] at h
        simp only [Except.ok.injEq, Prod.mk.injEq] at h
        obtain ⟨-, he, -⟩ := h
        subst he
        intro e hmem
        rcases List.mem_append.mp hmem with hm | hm
        · exact stepByte_no_info st b sta e1 s1 hb e hm
        · exact ih sta stb e2 s2 hr e hm

theorem nonInfoEvents_of_no_info (evs : List CommsEvent)
    (h : ∀ e ∈ evs, isInformation e = false) : nonInfoEvents evs = evs :=
  List.filter_eq_self.mpr (fun e he => by rw [h e he]; rfl)

theorem infoText_of_no_info (evs : List CommsEvent)
    (h : ∀ e ∈ evs, isInformation e = false) : infoText evs = [] := by
  induction evs with
  | nil => rfl
  | cons e rest ih =>
    have he : isInformation e = false := h e (List.mem_cons_self e rest)
    have hrest : infoText rest = [] := ih (fun x hx => h x (List.mem_cons_of_mem e hx))
    cases e with
    | information s => exact absurd he (by simp [isInformation])
    | _ => simpa [infoText, List.flatMap] using hrest

theorem nonInfoEvents_append (a b : List CommsEvent) :
    nonInfoEvents (a ++ b) = nonInfoEvents a ++ nonInfoEvents b :=
  List.filter_append a b

theorem infoText_append (a b : List CommsEvent) :
    infoText (a ++ b) = infoText a ++ infoText b := by
  unfold infoText
  exact List.flatMap_append a b _

theorem nonInfoEvents_flush (s : List Nat) :
    nonInfoEvents (if s = [] then [] else [CommsEvent.information s]) = [] := by
  split_ifs <;> simp [nonInfoEvents, isInformation]

theorem infoText_flush (s : List Nat) :
    infoText (if s = [] then [] else [CommsEvent.information s]) = s := by
  split_ifs with hs
  · simp [hs, infoText]
  · simp [infoText]

/-- C2 (amended): feeding a byte stream to `processdata` in arbitrary
consecutive sub-slices reaches the same decoder state and emits the same
non-INFORMATION events in the same order, and the same concatenated
INFORMATION text, as feeding the whole stream in one call — but not the
identical event sequence, because each call flushes its private
information string as its own INFORMATION event. -/
theorem processdata_chunking (st0 : CState) (chunks : List (List Nat)) (st : CState)
    (evs : List CommsEvent) (h : processdata st0 chunks.flatten = .ok (st, evs)) :
    ∃ evs2, feedChunks st0 chunks = .ok (st, evs2) ∧
      nonInfoEvents evs2 = nonInfoEvents evs ∧ infoText evs2 = infoText evs := by
  induction chunks generalizing st0 st evs with
  | nil =>
    simp only [List.flatten_nil, processdata, runBytes, if_pos rfl,
      Except.ok.injEq, Prod.mk.injEq] at h
    obtain ⟨hst, hevs⟩ := h
    subst hst
    subst hevs
    exact ⟨[], rfl, rfl, rfl⟩
  | cons c cs ih =>
    rw [List.flatten_cons, processdata, runBytes_append] at h
    cases h1 : runBytes st0 c with
    | error f => rw [h1] at h; exact absurd h (by simp)
    | ok r1 =>
      obtain ⟨st1, e1, s1⟩ := r1
      rw [h1] at h
      dsimp only at h
      cases h2 : runBytes st1 cs.flatten with
      | error f => rw [h2] at h; exact absurd h (by simp)
      | ok r2 =>
        obtain ⟨st2, e2, s2⟩ := r2
        rw [h2] at h
        simp only [Except.ok.injEq, Prod.mk.injEq] at h
        obtain ⟨hst, hevs⟩ := h
        subst hst
        subst hevs
        have hp1 : processdata st0 c =
            .ok (st1, e1 ++ (if s1 = [] then [] else [CommsEvent.information s1])) := by
          rw [processdata, h1]
        have hp2 : processdata st1 cs.flatten =
            .ok (st2, e2 ++ (if s2 = [] then [] else [CommsEvent.information s2])) := by
          rw [processdata, h2]
        obtain ⟨evs2, hfc, hnon, hinfo⟩ := ih st1 st2 _ hp2
        have hn1 : ∀ e ∈ e1, isInformation e = false :=
          runBytes_no_info c st0 st1 e1 s1 h1
        have hn2 : ∀ e ∈ e2, isInformation e = false :=
          runBytes_no_info cs.flatten st1 st2 e2 s2 h2
        refine ⟨(e1 ++ (if s1 = [] then [] else [CommsEvent.information s1])) ++ evs2,
          ?_, ?_, ?_⟩
        · rw [feedChunks, hp1]
          dsimp only
          rw [hfc]
        · rw [nonInfoEvents_append, nonInfoEvents_append, nonInfoEvents_flush, hnon,
            nonInfoEvents_append, nonInfoEvents_flush,
            nonInfoEvents_of_no_info e1 hn1, nonInfoEvents_of_no_info e2 hn2,
            nonInfoEvents_append, nonInfoEvents_flush, nonInfoEvents_append,
            nonInfoEvents_of_no_info e1 hn1, nonInfoEvents_of_no_info e2 hn2]
          simp
        · rw [infoText_append, infoText_append, infoText_flush, hinfo,
            infoText_append, infoText_flush,
            infoText_of_no_info e1 hn1, infoText_of_no_info e2 hn2,
            infoText_append, infoText_flush, infoText_append,
            infoText_of_no_info e1 hn1, infoText_of_no_info e2 hn2]
          simp

/-- C2 (counterexample to the literal claim): the bytes 65, 66 fed whole
produce one INFORMATION event carrying both characters, while the same
bytes fed one per call produce two one-character INFORMATION events — a
different event sequence. -/
theorem processdata_chunking_cex :
    processdata initState [65, 66] = .ok (initState, [CommsEvent.information [65, 66]]) ∧
    feedChunks initState [[65], [66]] =
      .ok (initState, [CommsEvent.information [65], CommsEvent.information [66]]) ∧
    [CommsEvent.information [65, 66]] ≠
      [CommsEvent.information [65], CommsEvent.information [66]] := by
  decide

theorem processdata_chunking_witness :
    ∃ evs2, feedChunks initState [[0xA1], [0x07]] =
        .ok (⟨0, [0xA1], 0, 0⟩, evs2) ∧
      nonInfoEvents evs2 = nonInfoEvents [CommsEvent.ackEvt 7] ∧
      infoText evs2 = infoText [CommsEvent.ackEvt 7] :=
  processdata_chunking initState [[0xA1], [0x07]] ⟨0, [0xA1], 0, 0⟩
    [CommsEvent.ackEvt 7] (by decide)

end NFC

namespace NFC

/-- The invariant `processdata` maintains on the session state: in the LEN
state the pending response is MESSAGE (0xA5), and in the DATA state it is
MESSAGE or DATA (0xA2), the only values the dispatch branches store. -/
def InvC (st : CState) : Prop :=
  (st.state = 1 → st.inboundResponse = 0xA5) ∧
  (st.state = 2 → st.inboundResponse = 0xA5 ∨ st.inboundResponse = 0xA2)

theorem InvC_initState : InvC initState :=
  ⟨fun h => by simp [initState] at h, fun h => by simp [initState] at h⟩

theorem stepByte_inv (st : CState) (b : Nat) (st1 : CState) (evs : List CommsEvent)
    (s : List Nat) (hI : InvC st) (h : stepByte st b = .ok (st1, evs, s)) : InvC st1 := by
  rw [stepByte] at h
  dsimp only at h
  repeat' split at h
  all_goals first
    | (simp only [Except.ok.injEq, Prod.mk.injEq] at h; obtain ⟨he, -⟩ := h; subst he;
        simp_all [InvC])
    | simp at h

theorem stepByte_no_unexpected (st : CState) (b : Nat) (hI : InvC st) (c : Nat) :
    stepByte st b ≠ .error (.unexpectedResponse c) := by
  intro h
  rw [stepByte] at h
  dsimp only at h
  repeat' split at h
  all_goals simp_all [InvC]

theorem runBytes_inv (data : List Nat) (st : CState) (hI : InvC st) :
    (∀ c, runBytes st data ≠ .error (.unexpectedResponse c)) ∧
    (∀ st1 evs s, runBytes st data = .ok (st1, evs, s) → InvC st1) := by
  induction data generalizing st with
  | nil =>
    refine ⟨fun c h => by simp [runBytes] at h, fun st1 evs s h => ?_⟩
    simp only [runBytes, Except.ok.injEq, Prod.mk.injEq] at h
    obtain ⟨he, -⟩ := h
    subst he
    exact hI
  | cons b rest ih =>
    cases hb : stepByte st b with
    | error f =>
      refine ⟨fun c h => ?_, fun st1 evs s h => ?_⟩
      · rw [runBytes, hb] at h
        simp only [Except.error.injEq] at h
        subst h
        exact stepByte_no_unexpected st b hI c hb
      · rw [runBytes, hb] at h
        exact absurd h (by simp)
    | ok r =>
      obtain ⟨sta, e1, s1⟩ := r
      have hIa : InvC sta := stepByte_inv st b sta e1 s1 hI hb
      refine ⟨fun c h => ?_, fun st1 evs s h => ?_⟩
      · rw [runBytes, hb] at h
        dsimp only at h
        cases hr : runBytes sta rest with
        | error f =>
          rw [hr] at h
          simp only [Except.error.injEq] at h
          subst h
          exact (ih sta hIa).1 c hr
        | ok r2 =>
          obtain ⟨stb, e2, s2⟩ := r2
          rw [hr] at h
          exact absurd h (by simp)
      · rw [runBytes, hb] at h
        dsimp only at h
        cases hr : runBytes sta rest with
        | error f => rw [hr] at h; exact absurd h (by simp)
        | ok r2 =>
          obtain ⟨stb, e2, s2⟩ := r2
          rw [hr] at h
          simp only [Except.ok.injEq, Prod.mk.injEq] at h
          obtain ⟨he, -⟩ := h
          subst he
          exact (ih sta hIa).2 stb e2 s2 hr

theorem feedChunks_inv (chunks : List (List Nat)) (st : CState) (hI : InvC st) :
    (∀ c, feedChunks st chunks ≠ .error (.unexpectedResponse c)) ∧
    (∀ st1 evs, feedChunks st chunks = .ok (st1, evs) → InvC st1) := by
  induction chunks generalizing st with
  | nil =>
    refine ⟨fun c h => by simp [feedChunks] at h, fun st1 evs h => ?_⟩
    simp only [feedChunks, Except.ok.injEq, Prod.mk.injEq] at h
    obtain ⟨he, -⟩ := h
    subst he
    exact hI
  | cons ch rest ih =>
    cases hp : processdata st ch with
    | error f =>
      refine ⟨fun c h => ?_, fun st1 evs h => ?_⟩
      · rw [feedChunks, hp] at h
        dsimp only at h
        simp only [Except.error.injEq] at h
        subst h
        rw [processdata] at hp
        cases hr : runBytes st ch with
        | error f2 =>
          rw [hr] at hp
          simp only [Except.error.injEq] at hp
          subst hp
          exact (runBytes_inv ch st hI).1 c hr
        | ok r =>
          obtain ⟨sta, e1, s1⟩ := r
          rw [hr] at hp
          exact absurd hp (by simp)
      · rw [feedChunks, hp] at h
        exact absurd h (by simp)
    | ok r =>
      obtain ⟨sta, evs1⟩ := r
      have hIa : InvC sta := by
        rw [processdata] at hp
        cases hr : runBytes st ch with
        | error f => rw [hr] at hp; exact absurd hp (by simp)
        | ok r2 =>
          obtain ⟨stb, e1, s1⟩ := r2
          rw [hr] at hp
          simp only [Except.ok.injEq, Prod.mk.injEq] at hp
          obtain ⟨he, -⟩ := hp
          subst he
          exact (runBytes_inv ch st hI).2 stb e1 s1 hr
      refine ⟨fun c h => ?_, fun st1 evs h => ?_⟩
      · rw [feedChunks, hp] at h
        dsimp only at h
        cases hr : feedChunks sta rest with
        | error f =>
          rw [hr] at h
          simp only [Except.error.injEq] at h
          subst h
          exact (ih sta hIa).1 c hr
        | ok r2 =>
          obtain ⟨stb, e2⟩ := r2
          rw [hr] at h
          exact absurd h (by simp)
      · rw [feedChunks, hp] at h
        dsimp only at h
        cases hr : feedChunks sta rest with
        | error f => rw [hr] at h; exact absurd h (by simp)
        | ok r2 =>
          obtain ⟨stb, e2⟩ := r2
          rw [hr] at h
          simp only [Except.ok.injEq, Prod.mk.injEq] at h
          obtain ⟨he, -⟩ := h
          subst he
          exact (ih sta hIa).2 stb e2 hr

/-- C9: feeding any byte sequence, in any chunking, to the decoder starting
from the initial state never takes the "Unexpected inbound response type"
throw branch: when the DATA state completes, the stored response code is
always MESSAGE (0xA5) or DATA (0xA2), the only values the dispatch ever
stores. -/
theorem unexpected_response_unreachable (chunks : List (List Nat)) (c : Nat) :
    feedChunks initState chunks ≠ .error (.unexpectedResponse c) :=
  (feedChunks_inv chunks initState InvC_initState).1 c

end NFC

namespace NFC

theorem stepByte_state2 (acc : List Nat) (cnt : Int) (resp b : Nat) :
    stepByte ⟨2, acc, cnt, resp⟩ b =
      (if ((acc ++ [b]).length : Int) = cnt then
        if resp = 0xA5 then
          match messageParse (acc ++ [b]) with
          | none => .error .parseDiverged
          | some (.ok msg) => .ok (⟨0, acc ++ [b], cnt, resp⟩, [.ndefMessage msg], [])
          | some (.error e) => .ok (⟨0, acc ++ [b], cnt, resp⟩, [.errorMsg e], [])
        else if resp = 0xA2 ∨ resp = 0xA0 then
          .ok (⟨0, acc ++ [b], cnt, resp⟩, [.dataEvt (acc ++ [b])], [])
        else .error (.unexpectedResponse resp)
      else .ok (⟨2, acc ++ [b], cnt, resp⟩, [], [])) := rfl

theorem runBytes_message_frame (p : List Nat) (acc : List Nat) (cnt : Int)
    (msg : List Record) (hne : p ≠ [])
    (hcnt : cnt = ((acc.length + p.length : Nat) : Int))
    (hparse : messageParse (acc ++ p) = some (.ok msg)) :
    runBytes ⟨2, acc, cnt, 0xA5⟩ p =
      .ok (⟨0, acc ++ p, cnt, 0xA5⟩, [CommsEvent.ndefMessage msg], []) := by
  induction p generalizing acc cnt with
  | nil => exact absurd rfl hne
  | cons b rest ih =>
    rw [runBytes, stepByte_state2]
    cases rest with
    | nil =>
      have hc1 : (((acc ++ [b]).length : Nat) : Int) = cnt := by
        rw [hcnt]; simp
      rw [if_pos hc1, if_pos rfl, hparse]
      dsimp only
      rw [runBytes]
      simp
    | cons r2 rest2 =>
      have hc1 : ¬ ((((acc ++ [b]).length : Nat) : Int) = cnt) := by
        rw [hcnt]
        intro hcon
        have h2 : (acc ++ [b]).length = acc.length + (b :: r2 :: rest2).length := by
          exact_mod_cast hcon
        simp only [List.length_append, List.length_cons, List.length_nil] at h2
        omega
      rw [if_neg hc1]
      dsimp only
      have hne2 : r2 :: rest2 ≠ [] := by simp
      have hcnt2 : cnt = (((acc ++ [b]).length + (r2 :: rest2).length : Nat) : Int) := by
        rw [hcnt]
        have h3 : acc.length + (b :: r2 :: rest2).length =
            (acc ++ [b]).length + (r2 :: rest2).length := by
          simp only [List.length_append, List.length_cons, List.length_nil]
          omega
        rw [h3]
      have hparse2 : messageParse ((acc ++ [b]) ++ (r2 :: rest2)) = some (.ok msg) := by
        rw [List.append_assoc]
        simpa using hparse
      rw [ih (acc ++ [b]) cnt hne2 hcnt2 hparse2]
      dsimp only
      simp [List.append_assoc]

/-- C7: when a MESSAGE frame completes and its accumulated payload fails
`Message.parse`, the decoder emits exactly one ERROR event carrying the
codec failure, returns to the idle state, and a well-formed MESSAGE frame
fed immediately afterwards is decoded into its NDEF_MESSAGE event
normally. -/
theorem message_frame_error_recovers
    (acc : List Nat) (b : Nat) (e : NdefError)
    (hp1 : messageParse (acc ++ [b]) = some (.error e))
    (hi lo : Nat) (p : List Nat) (msg : List Record)
    (hlo : lo < 256) (hlen : p.length = hi * 256 + lo) (hpne : p ≠ [])
    (hp2 : messageParse p = some (.ok msg)) :
    runBytes ⟨2, acc, ((acc.length + 1 : Nat) : Int), 0xA5⟩ (b :: 0xA5 :: hi :: lo :: p) =
      .ok (⟨0, p, (p.length : Int), 0xA5⟩,
        [CommsEvent.errorMsg e, CommsEvent.ndefMessage msg], []) := by
  have hco : ((hi <<< 8 ||| lo : Nat) : Int) = ((p.length : Nat) : Int) := by
    rw [hlen, shiftLeft_lor_eq_add hi lo 8 (by omega)]
    norm_num
  rw [runBytes, stepByte_state2]
  have hc1 : (((acc ++ [b]).length : Nat) : Int) = ((acc.length + 1 : Nat) : Int) := by
    simp
  rw [if_pos hc1, if_pos rfl, hp1]
  dsimp only
  rw [runBytes, show stepByte ⟨0, acc ++ [b], ((acc.length + 1 : Nat) : Int), 0xA5⟩ 0xA5 =
      .ok (⟨1, [], -1, 0xA5⟩, [], []) from rfl]
  dsimp only
  rw [runBytes, show stepByte ⟨1, ([] : List Nat), (-1 : Int), 0xA5⟩ hi =
      .ok (⟨1, [hi], -1, 0xA5⟩, [], []) from rfl]
  dsimp only
  rw [runBytes, show stepByte ⟨1, [hi], (-1 : Int), 0xA5⟩ lo =
      .ok (⟨2, [], ((hi <<< 8 ||| lo : Nat) : Int), 0xA5⟩, [], []) from rfl]
  dsimp only
  have hcnt2 : ((hi <<< 8 ||| lo : Nat) : Int) =
      ((([] : List Nat).length + p.length : Nat) : Int) := by
    rw [hco]
    norm_num
  rw [runBytes_message_frame p [] ((hi <<< 8 ||| lo : Nat) : Int) msg hpne hcnt2
    (by simpa using hp2)]
  dsimp only
  rw [hco]
  simp

theorem message_frame_error_recovers_witness :
    runBytes ⟨2, [], ((1 : Nat) : Int), 0xA5⟩
        ([0] ++ [0xA5, 0, 16] ++
          [209, 1, 12, 85, 1, 101, 120, 97, 109, 112, 108, 101, 46, 99, 111, 109]) =
      .ok (⟨0, [209, 1, 12, 85, 1, 101, 120, 97, 109, 112, 108, 101, 46, 99, 111, 109],
          ((16 : Nat) : Int), 0xA5⟩,
        [CommsEvent.errorMsg NdefError.invalidRecordData,
         CommsEvent.ndefMessage [⟨typeU, 1, [1, 101, 120, 97, 109, 112, 108, 101, 46, 99, 111, 109]⟩]], []) :=
  message_frame_error_recovers [] 0 NdefError.invalidRecordData (by decide)
    0 16 [209, 1, 12, 85, 1, 101, 120, 97, 109, 112, 108, 101, 46, 99, 111, 109]
    [⟨typeU, 1, [1, 101, 120, 97, 109, 112, 108, 101, 46, 99, 111, 109]⟩]
    (by decide) (by decide) (by decide) (by decide)

end NFC

namespace NFC

theorem jsGet_ge_len (data : List Nat) (i : Int) (h : (data.length : Int) ≤ i) :
    jsGet data i = 0 := by
  rw [jsGet, if_neg (by omega)]

/-- The declared fields of the record at `offset`, as `Record.parse` lays
them out: the 1- or 4-byte length field, the type-name bytes, and the
payload with its declared length.  Holds when one of them extends past
the end of the buffer. -/
def fieldsOverrun (data : List Nat) (offset : Int) : Bool :=
  let header := Header.fromByte (jsGet data offset)
  let typeLen : Nat := jsGet data (offset + 1)
  let lenSize : Int := if header.shortRecord then 1 else 4
  let recordLen : Int :=
    if header.shortRecord then (jsGet data (offset + 2) : Int)
    else int32ofNat (jsGet data (offset + 2) <<< 24 ||| jsGet data (offset + 3) <<< 16 |||
      jsGet data (offset + 4) <<< 8 ||| jsGet data (offset + 5))
  let typeStart := offset + 2 + lenSize
  let ptr := typeStart + (typeLen : Int)
  decide ((data.length : Int) < typeStart ∨
    (0 < typeLen ∧ (data.length : Int) < ptr) ∨
    (data.length : Int) - ptr < recordLen)

theorem find_none_of_bad (ty : List Nat) (h0 : (0 : Nat) ∈ ty ∨ ty = []) :
    typeKeys.find? (fun x => ty == x) = none := by
  cases hf : typeKeys.find? (fun x => ty == x) with
  | none => rfl
  | some t =>
    have hp := List.find?_some hf
    have hmem := List.mem_of_find?_eq_some hf
    have hty : ty = t := by simpa using hp
    subst hty
    rcases h0 with h0 | h0
    · exact absurd h0 ((typeKeys_facts ty hmem).2.2)
    · rw [h0] at hmem
      have h1 := (typeKeys_facts [] hmem).1
      simp at h1

/-- C4 (amended): whenever a declared field of the record at `offset`
extends past the buffer end, `Record.parse` fails — with the length
error when the declared payload exceeds the remaining bytes, and
otherwise with the unsupported-type (or header-length) error — though it
may first read indexes outside the buffer, which JavaScript answers with
`undefined`. -/
theorem record_parse_overrun_errors (data : List Nat) (offset : Int)
    (hov : fieldsOverrun data offset = true) :
    ∃ e, (parseRecord data offset).1 = Except.error e := by
  cases hp : (parseRecord data offset).1 with
  | error e => exact ⟨e, rfl⟩
  | ok r =>
    exfalso
    rw [parseRecord] at hp
    rw [fieldsOverrun] at hov
    simp only [decide_eq_true_eq] at hov
    by_cases h4 : (data.length : Int) - offset < 4
    · rw [if_pos h4] at hp
      exact absurd hp (by simp)
    · rw [if_neg h4] at hp
      dsimp only at hp
      by_cases hsr : (Header.fromByte (jsGet data offset)).shortRecord = true
      · simp only [hsr, eq_self_iff_true, if_true] at hp hov
        split at hp
        · exact absurd hp (by simp)
        · rename_i hnlt
          split at hp
          · rename_i t heq
            rcases hov with hA | ⟨htl, hB⟩ | hC
            · by_cases htl0 : jsGet data (offset + 1) = 0
              · rw [find_none_of_bad _ (Or.inr (by rw [htl0]; rfl))] at heq
                exact absurd heq (by simp)
              · have hzero : (0 : Nat) ∈ (List.range (jsGet data (offset + 1))).map
                    (fun (i : Nat) => jsGet data (offset + 2 + 1 + (i : Int))) := by
                  refine List.mem_map.mpr ⟨0, List.mem_range.mpr (by omega), ?_⟩
                  rw [jsGet_ge_len]
                  omega
                rw [find_none_of_bad _ (Or.inl hzero)] at heq
                exact absurd heq (by simp)
            · have hzero : (0 : Nat) ∈ (List.range (jsGet data (offset + 1))).map
                  (fun (i : Nat) => jsGet data (offset + 2 + 1 + (i : Int))) := by
                refine List.mem_map.mpr
                  ⟨jsGet data (offset + 1) - 1, List.mem_range.mpr (by omega), ?_⟩
                rw [jsGet_ge_len]
                omega
              rw [find_none_of_bad _ (Or.inl hzero)] at heq
              exact absurd heq (by simp)
            · exact hnlt hC
          · exact absurd hp (by simp)
      · simp only [Bool.not_eq_true] at hsr
        simp only [hsr, Bool.false_eq_true, if_false] at hp hov
        split at hp
        · exact absurd hp (by simp)
        · rename_i hnlt
          split at hp
          · rename_i t heq
            rcases hov with hA | ⟨htl, hB⟩ | hC
            · by_cases htl0 : jsGet data (offset + 1) = 0
              · rw [find_none_of_bad _ (Or.inr (by rw [htl0]; rfl))] at heq
                exact absurd heq (by simp)
              · have hzero : (0 : Nat) ∈ (List.range (jsGet data (offset + 1))).map
                    (fun (i : Nat) => jsGet data (offset + 2 + 4 + (i : Int))) := by
                  refine List.mem_map.mpr ⟨0, List.mem_range.mpr (by omega), ?_⟩
                  rw [jsGet_ge_len]
                  omega
                rw [find_none_of_bad _ (Or.inl hzero)] at heq
                exact absurd heq (by simp)
            · have hzero : (0 : Nat) ∈ (List.range (jsGet data (offset + 1))).map
                  (fun (i : Nat) => jsGet data (offset + 2 + 4 + (i : Int))) := by
                refine List.mem_map.mpr
                  ⟨jsGet data (offset + 1) - 1, List.mem_range.mpr (by omega), ?_⟩
                rw [jsGet_ge_len]
                omega
              rw [find_none_of_bad _ (Or.inl hzero)] at heq
              exact absurd heq (by simp)
            · exact hnlt hC
          · exact absurd hp (by simp)

/-- C4 (counterexample to the literal claim): on the four-byte buffer
`[0x01, 0, 0, 0]` the long-form length field declared at offset 0 extends
past the buffer end, and `Record.parse` does read indexes 4 and 5 —
outside the buffer — before failing; and on `[0x01, 0, 0x80, 0]` the
failure is the unsupported-type error, not the length ("truncated
stream") error. -/
theorem record_parse_overrun_cex :
    fieldsOverrun [1, 0, 0, 0] 0 = true ∧
    (parseRecord [1, 0, 0, 0] 0).2 = true ∧
    (parseRecord [1, 0, 0, 0] 0).1 = .error (.invalidRecordLen 0 (-2)) ∧
    fieldsOverrun [1, 0, 128, 0] 0 = true ∧
    (parseRecord [1, 0, 128, 0] 0).1 = .error (.unsupportedType []) := by
  decide

theorem record_parse_overrun_errors_witness :
    ∃ e, (parseRecord [1, 0, 0, 0] 0).1 = Except.error e :=
  record_parse_overrun_errors [1, 0, 0, 0] 0 (by decide)

end NFC
